import Mathlib

/-
Verification of the file_backup repository's record model, validation filter and
recursive replication engine, following the Python sources under handlers/,
records/, validator.py and config.py.
-/

namespace FileBackup

/-- Paths and other Python strings are modelled as lists of characters. -/
abbrev Str := List Char

/-- Python s.startswith(pat) on list form: pat is an initial segment of s. -/
def startsWith : Str → Str → Bool
  | [], _ => true
  | _ :: _, [] => false
  | p :: ps, c :: cs => p == c && startsWith ps cs

/-- Whether pat occurs as a contiguous substring of s, at any position. -/
def occursIn (pat : Str) : Str → Bool
  | [] => startsWith pat []
  | c :: rest => startsWith pat (c :: rest) || occursIn pat rest

/-- One fuelled scan of Python str.replace(pat, "") for non-empty pat: walk left
to right, dropping each non-overlapping occurrence of pat. The fuel is an upper
bound on the length of the string, which keeps the recursion structural. -/
def pyRemoveGo (pat : Str) : Nat → Str → Str
  | _, [] => []
  | 0, s => s
  | fuel + 1, c :: rest =>
    if startsWith pat (c :: rest) then pyRemoveGo pat fuel (List.drop pat.length (c :: rest))
    else c :: pyRemoveGo pat fuel rest

/-- Python s.replace(pat, ""), the string subtraction used by every
upload_folder: removes every non-overlapping occurrence of pat, scanning left
to right. Replacing an empty pattern by the empty replacement returns s
unchanged, as in Python. -/
def pyRemove (pat s : Str) : Str :=
  if pat.isEmpty then s else pyRemoveGo pat s.length s

/-- Python path.split("."): the list of dot-separated pieces (never empty). -/
def splitDotAux : Str → Str → List Str
  | acc, [] => [acc.reverse]
  | acc, c :: rest =>
    if c = '.' then acc.reverse :: splitDotAux [] rest else splitDotAux (c :: acc) rest

/-- Python path.split(".") with accumulator initialised. -/
def splitDot (s : Str) : List Str := splitDotAux [] s

/-- The piece of s after its final dot, or all of s when it has no dot: the
wording the spec uses for the format filter's input. -/
def afterLastDot (s : Str) : Str := (s.reverse.takeWhile (fun c => c != '.')).reverse

/-- Config.EXCLUDED_FORMATS from config.py. -/
def EXCLUDED_FORMATS : List Str := ["pyc".data, "pyd".data, "lnk".data, "toc".data]

/-- The rejection loop of Validator.format_validator: False as soon as the
computed format equals an excluded one. -/
def formatLoop (fm : Str) : List Str → Bool
  | [] => true
  | f :: rest => if fm = f then false else formatLoop fm rest

/-- Validator.format_validator: path.split(".")[-1] compared against
Config.EXCLUDED_FORMATS. -/
def format_validator (path : Str) : Bool :=
  formatLoop ((splitDot path).getLastD []) EXCLUDED_FORMATS

/-- BaseHandler.validate's loop: False on the first rejecting validator. -/
def validateLoop (p : Str) : List (Str → Bool) → Bool
  | [] => true
  | v :: rest => if !(v p) then false else validateLoop p rest

/-- BaseHandler.validate: runs the loop when the handler's validator list is
non-empty; an empty list validates every path. -/
def validate (vs : List (Str → Bool)) (p : Str) : Bool :=
  if vs.isEmpty then true else validateLoop p vs

/-- pathlib.Path(path).name as used by the record constructors: the final
path segment (the part after the last "/"). -/
def lastSegment (p : Str) : Str := (p.reverse.takeWhile (fun c => c != '/')).reverse

mutual
/-- In-memory record (records/base_record.py, records/file.py,
records/folder.py): a file carries path, name, modification time, size and id;
a folder additionally carries its base_location and its children mapping. -/
inductive Record where
  | file (path name : Str) (modified size id : Nat)
  | folder (path : Str) (base_location : Option Str) (modified id : Nat) (children : Children)

/-- Folder.children: a Python dict from child path to child record, modelled
as an insertion-ordered association list. -/
inductive Children where
  | nil
  | cons (key : Str) (r : Record) (rest : Children)
end

deriving instance DecidableEq for Record, Children

/-- The path attribute shared by both record kinds. -/
def Record.path : Record → Str
  | .file p _ _ _ _ => p
  | .folder p _ _ _ _ => p

/-- The modified attribute shared by both record kinds. -/
def Record.modifiedOf : Record → Nat
  | .file _ _ m _ _ => m
  | .folder _ _ m _ _ => m

/-- The size attribute of a file record (0 for a folder). -/
def Record.byteSize : Record → Nat
  | .file _ _ _ s _ => s
  | .folder _ _ _ _ _ => 0

/-- The children mapping of a folder record (empty for a file). -/
def Record.childrenOf : Record → Children
  | .file _ _ _ _ _ => .nil
  | .folder _ _ _ _ cs => cs

/-- The keys of a children mapping, in insertion order. -/
def Children.keysOf : Children → List Str
  | .nil => []
  | .cons k _ rest => k :: rest.keysOf

/-- The number of entries of a children mapping. -/
def Children.size : Children → Nat
  | .nil => 0
  | .cons _ _ rest => rest.size + 1

/-- Python dict assignment children[k] = r: replace in place when the key is
present, append at the end otherwise (Folder.add_child stores record.path as
the key). -/
def Children.addChild : Children → Str → Record → Children
  | .nil, k, c => .cons k c .nil
  | .cons k' r' rest, k, c =>
    if k' = k then .cons k c rest else .cons k' r' (rest.addChild k c)

/-- Folder.add_child on a folder record: children[record.path] = record.
A file record is returned unchanged (Python files have no children). -/
def addChildR : Record → Record → Record
  | .folder p b m i cs, c => .folder p b m i (cs.addChild (Record.path c) c)
  | r, _ => r

/-- The exceptions from errors.py reachable through the replication paths,
plus the Dropbox SDK exception, which is not an errors.py subclass and is
therefore never caught by the handlers' except clauses. -/
inductive Err where
  | unableToAccess (path : Str)
  | noBasePath (path : Str)
  | recordNotFound (path : Str)
  | notFile (path : Str)
  | notFolder (path : Str)
  | dropboxApi (path : Str)
  deriving DecidableEq

/-- Association-list lookup, used for the maps inside the filesystem state. -/
def lookupA {α : Type} : List (Str × α) → Str → Option α
  | [], _ => none
  | (k, v) :: rest, q => if k = q then some v else lookupA rest q

/-- Association-list update that keeps the position of an existing key and
appends a missing key at the end. -/
def setA {α : Type} : List (Str × α) → Str → α → List (Str × α)
  | [], k, v => [(k, v)]
  | (k', v') :: rest, k, v =>
    if k' = k then (k, v) :: rest else (k', v') :: setA rest k v

/-- The local filesystem as seen through the os calls LocalHandler makes:
existing directories, file contents, modification times (set by os.utime),
inode numbers reported by os.stat, directory listings returned by os.listdir,
and the failure environment: paths where os.makedirs raises an OSError other
than FileExistsError, where open(..., "wb") raises PermissionError/OSError,
and where open(..., "rb") raises FileNotFoundError/PermissionError. -/
structure FS where
  dirs : List Str
  files : List (Str × List Nat)
  mtimes : List (Str × Nat)
  inos : List (Str × Nat)
  listing : List (Str × List Str)
  deniedDirs : List Str
  deniedWrites : List Str
  deniedReads : List Str

/-- LocalHandler.get_file_content: open(path, "rb") and read;
FileNotFoundError or PermissionError becomes UnableToAccessException. -/
def get_file_content (fs : FS) (path : Str) : Except Err (List Nat) :=
  if path ∈ fs.deniedReads then .error (.unableToAccess path)
  else
    match lookupA fs.files path with
    | some c => .ok c
    | none => .error (.unableToAccess path)

/-- LocalHandler.get_file_stat: os.path.exists, os.path.isfile, then os.stat,
returning the modified/size/id dictionary. -/
def get_file_stat (fs : FS) (path : Str) : Except Err (Nat × Nat × Nat) :=
  if (lookupA fs.files path).isNone ∧ path ∉ fs.dirs then .error (.recordNotFound path)
  else
    match lookupA fs.files path with
    | none => .error (.notFile path)
    | some c => .ok ((lookupA fs.mtimes path).getD 0, c.length, (lookupA fs.inos path).getD 0)

/-- LocalHandler.get_folder_stat: os.path.exists, os.path.isdir, then os.stat,
returning the modified and id entries of the stat dictionary. -/
def get_folder_stat (fs : FS) (path : Str) : Except Err (Nat × Nat) :=
  if (lookupA fs.files path).isNone ∧ path ∉ fs.dirs then .error (.recordNotFound path)
  else if path ∈ fs.dirs then
    .ok ((lookupA fs.mtimes path).getD 0, (lookupA fs.inos path).getD 0)
  else .error (.notFolder path)

/-- The os.makedirs plus os.utime step of LocalHandler.upload_folder together
with its exception handlers: FileExistsError is swallowed (and the utime that
follows makedirs in the try block is then skipped), any other OSError becomes
UnableToAccessException. -/
def makedirs_step (fs : FS) (path : Str) (modified : Nat) : FS × Option Err :=
  if path ∈ fs.dirs ∨ (lookupA fs.files path).isSome then (fs, none)
  else if path ∈ fs.deniedDirs then (fs, some (.unableToAccess path))
  else ({ fs with dirs := path :: fs.dirs, mtimes := setA fs.mtimes path modified }, none)

/-- Modelled from the spec for the record construction only: records/file.py
as shipped neither accepts the stat payload every handler passes it nor
overrides the abstract set_stat, so instantiating File raises TypeError; the
File record built here follows the stat dictionary written at the call site in
LocalHandler.upload_file and §3 of the spec (name = final path segment).
Everything else in this function — destination path, open/write/utime order,
the bytes written, and the exception mapping — is translated from
LocalHandler.upload_file. -/
def upload_file (fs : FS) (srcPath name : Str) (modified : Nat) (remotePath : Str) :
    FS × Except Err Record :=
  let newPath := remotePath ++ '/' :: name
  if newPath ∈ fs.deniedWrites then (fs, .error (.unableToAccess newPath))
  else
    -- open(new_file_path, "wb") creates/truncates before the source is read
    let fs1 := { fs with files := setA fs.files newPath [] }
    match get_file_content fs1 srcPath with
    | .error e => (fs1, .error e)
    | .ok content =>
      let fs2 := { fs1 with
        files := setA fs1.files newPath content
        mtimes := setA fs1.mtimes newPath modified }
      (fs2, .ok (.file newPath name modified content.length ((lookupA fs2.inos newPath).getD 0)))

mutual
/-- LocalHandler.upload_folder, lines 170-228: check base_location (falsy
None or "" raises NoBasePathSpecifiedException), compute the relative path by
string replacement, concatenate it onto the destination root, run the
makedirs/utime step, build the destination Folder record (base None, stat read
back from the destination), and, when with_content is set, run the child loop
threading the untouched destination root (new_base_folder_path). -/
def upload_folder (vals : List (Str → Bool)) (fs : FS) (path : Str)
    (base_location : Option Str) (modified : Nat) (children : Children)
    (new_folder_path : Str) (with_content : Bool) : FS × Except Err Record :=
  match base_location with
  | none => (fs, .error (.noBasePath path))
  | some b =>
    if b = [] then (fs, .error (.noBasePath path))
    else
      let folder_relative_path := pyRemove b path
      let dest := new_folder_path ++ folder_relative_path
      match makedirs_step fs dest modified with
      | (fs1, some e) => (fs1, .error e)
      | (fs1, none) =>
        match get_folder_stat fs1 dest with
        | .error e => (fs1, .error e)
        | .ok (dm, di) =>
          let new_folder : Record := .folder dest none dm di .nil
          if with_content then upload_children vals fs1 children new_folder_path new_folder
          else (fs1, .ok new_folder)
termination_by sizeOf children + 1

/-- One iteration body of the with_content loop of LocalHandler.upload_folder:
a File child goes through upload_file into the destination folder, a Folder
child recurses into upload_folder with the original destination root and
with_content=True. -/
def child_step (vals : List (Str → Bool)) (fs : FS) (r : Record)
    (new_base destPath : Str) : FS × Except Err Record :=
  match r with
  | .file p n m _ _ => upload_file fs p n m destPath
  | .folder p b m _ ccs => upload_folder vals fs p b m ccs new_base true
termination_by sizeOf r
decreasing_by
  simp_wf
  cases p <;> simp_arith

/-- The with_content loop of LocalHandler.upload_folder: children whose key
fails validate are skipped; UnableToAccessException from a child is caught and
that child is skipped; any other exception propagates; a successful child is
stored in the destination folder via add_child. -/
def upload_children (vals : List (Str → Bool)) (fs : FS) (cs : Children)
    (new_base : Str) (acc : Record) : FS × Except Err Record :=
  match cs with
  | .nil => (fs, .ok acc)
  | .cons k r rest =>
    if validate vals k then
      match child_step vals fs r new_base (Record.path acc) with
      | (fs1, .ok c) => upload_children vals fs1 rest new_base (addChildR acc c)
      | (fs1, .error (.unableToAccess _)) => upload_children vals fs1 rest new_base acc
      | (fs1, .error e) => (fs1, .error e)
    else upload_children vals fs rest new_base acc
termination_by sizeOf cs
end

/-- Observation device for the child loop (not part of the source): the list
of per-child outcomes of the very run upload_children performs, one entry per
validated child, stopping after an exception the loop would not catch. The
destination path handed to each step is constant across the loop because
add_child never changes the folder's own path. -/
def upload_trace (vals : List (Str → Bool)) (fs : FS) (cs : Children)
    (new_base destPath : Str) : List (Except Err Record) :=
  match cs with
  | .nil => []
  | .cons k r rest =>
    if validate vals k then
      match child_step vals fs r new_base destPath with
      | (fs1, .ok c) => .ok c :: upload_trace vals fs1 rest new_base destPath
      | (fs1, .error (.unableToAccess q)) =>
        .error (.unableToAccess q) :: upload_trace vals fs1 rest new_base destPath
      | (_, .error e) => [.error e]
    else upload_trace vals fs rest new_base destPath

/-- File(record_path, self) during enumeration: stat the path and build the
record. The name field follows §3 of the spec (final path segment), see the
note on upload_file about records/file.py. -/
def mk_file (fs : FS) (path : Str) : Except Err Record :=
  match get_file_stat fs path with
  | .error e => .error e
  | .ok (m, s, i) => .ok (.file path (lastSegment path) m s i)

/-- Folder(record_path, self, folder.base_location) during enumeration: stat
the path and build the record, inheriting the parent's base_location. -/
def mk_folder (fs : FS) (path : Str) (base : Option Str) : Except Err Record :=
  match get_folder_stat fs path with
  | .error e => .error e
  | .ok (m, i) => .ok (.folder path base m i .nil)

/-- The loop of LocalHandler.get_folder_content over os.listdir: validate the
bare entry name, prefix it with the folder path, instantiate a File or Folder
record depending on os.path.isfile, and skip the entry when the record
constructor raises UnableToAccessException or RecordNotFoundException. -/
def folder_content_loop (vals : List (Str → Bool)) (fs : FS) (folderPath : Str)
    (base : Option Str) : List Str → List Record
  | [] => []
  | name :: rest =>
    if validate vals name then
      let full := folderPath ++ '/' :: name
      if (lookupA fs.files full).isSome then
        match mk_file fs full with
        | .ok r => r :: folder_content_loop vals fs folderPath base rest
        | .error _ => folder_content_loop vals fs folderPath base rest
      else
        match mk_folder fs full base with
        | .ok r => r :: folder_content_loop vals fs folderPath base rest
        | .error _ => folder_content_loop vals fs folderPath base rest
    else folder_content_loop vals fs folderPath base rest

/-- LocalHandler.get_folder_content: run the loop over the os.listdir result
for the folder's path. -/
def get_folder_content (vals : List (Str → Bool)) (fs : FS) (folderPath : Str)
    (base : Option Str) : List Record :=
  folder_content_loop vals fs folderPath base ((lookupA fs.listing folderPath).getD [])

/-- The object-store backend state for the Dropbox adapter: the object paths
that exist, a counter producing the ids the API reports, and the paths where
files_upload raises DropboxException. -/
structure Box where
  objects : List Str
  nextId : Nat
  deniedUploads : List Str

/-- The leading-slash normalization the Dropbox handler applies to the paths
it sends to the API. -/
def leadSlash (p : Str) : Str := if startsWith ['/'] p then p else '/' :: p

/-- files_delete_v2 under its try/except: remove the object if it exists; the
DropboxException raised for a missing object is tolerated, leaving the state
unchanged. -/
def box_delete (bx : Box) (p : Str) : Box :=
  { bx with objects := bx.objects.erase p }

/-- files_create_folder_v2: DropboxException when an object already exists at
the path (nothing in the handler catches it); otherwise the object is created
and the API reports its metadata id. -/
def box_create_folder (bx : Box) (p : Str) : Box × Except Err Nat :=
  if p ∈ bx.objects then (bx, .error (.dropboxApi p))
  else ({ bx with objects := p :: bx.objects, nextId := bx.nextId + 1 }, .ok bx.nextId)

/-- DropBoxHandler.upload_file: file.get_content() reads the source through
the source record's handler (the local filesystem here) and can raise
uncaught; then files_upload sends the bytes to the slash-normalized
destination; a DropboxException there is logged and the function falls
through, returning None. The File record follows the stat dictionary at the
call site (see the note on upload_file about records/file.py);
server_modified is modelled by the now parameter. -/
def dropbox_upload_file (fs : FS) (bx : Box) (srcPath name : Str)
    (remotePath : Str) (now : Nat) : Box × Except Err (Option Record) :=
  let dest := leadSlash remotePath ++ '/' :: name
  match get_file_content fs srcPath with
  | .error e => (bx, .error e)
  | .ok content =>
    if dest ∈ bx.deniedUploads then (bx, .ok none)
    else
      ({ bx with
          objects := if dest ∈ bx.objects then bx.objects else dest :: bx.objects
          nextId := bx.nextId + 1 },
        .ok (some (.file dest name now content.length bx.nextId)))

mutual
/-- DropBoxHandler.upload_folder, lines 169-238, in source order: first try
to delete an object at the slash-normalized source folder path (missing
object tolerated); then the base_location check; the relative/destination
path computation; files_create_folder_v2 again at the slash-normalized
source folder path; the destination Folder record built with the
synchronization-moment timestamp (time.time(), the now parameter) and the id
the API reported; then lines 218-225 recompute new_base_folder_path from the
already-updated new_folder_path, so the child loop receives the parent's
destination path as its root. -/
def dropbox_upload_folder (vals : List (Str → Bool)) (fs : FS) (bx : Box)
    (now : Nat) (path : Str) (base_location : Option Str) (children : Children)
    (new_folder_path : Str) (with_content : Bool) : Box × Except Err Record :=
  let bx1 := box_delete bx (leadSlash path)
  match base_location with
  | none => (bx1, .error (.noBasePath path))
  | some b =>
    if b = [] then (bx1, .error (.noBasePath path))
    else
      let folder_relative_path := pyRemove b path
      let dest := new_folder_path ++ folder_relative_path
      match box_create_folder bx1 (leadSlash path) with
      | (bx2, .error e) => (bx2, .error e)
      | (bx2, .ok rid) =>
        let new_folder : Record := .folder dest none now rid .nil
        let new_base2 := dest
        if with_content then
          dropbox_upload_children vals fs bx2 now children new_base2 new_folder
        else (bx2, .ok new_folder)
termination_by sizeOf children + 1

/-- The with_content loop of DropBoxHandler.upload_folder: no try/except
around the children, so any errors.py exception propagates; a None result
from upload_file (Dropbox API failure) is simply not added. -/
def dropbox_upload_children (vals : List (Str → Bool)) (fs : FS) (bx : Box)
    (now : Nat) (cs : Children) (new_base : Str) (acc : Record) :
    Box × Except Err Record :=
  match cs with
  | .nil => (bx, .ok acc)
  | .cons k r rest =>
    if validate vals k then
      match r with
      | .file p n _ _ _ =>
        match dropbox_upload_file fs bx p n (Record.path acc) now with
        | (bx1, .error e) => (bx1, .error e)
        | (bx1, .ok none) => dropbox_upload_children vals fs bx1 now rest new_base acc
        | (bx1, .ok (some f)) =>
          dropbox_upload_children vals fs bx1 now rest new_base (addChildR acc f)
      | .folder p b _ _ ccs =>
        match dropbox_upload_folder vals fs bx now p b ccs new_base true with
        | (bx1, .error e) => (bx1, .error e)
        | (bx1, .ok d) => dropbox_upload_children vals fs bx1 now rest new_base (addChildR acc d)
    else dropbox_upload_children vals fs bx now rest new_base acc
termination_by sizeOf cs
decreasing_by
  all_goals simp_wf
  all_goals omega
end

mutual
/-- The paths of every folder node of a record tree (the record itself
included when it is a folder). -/
def destFolderPaths : Record → List Str
  | .file _ _ _ _ _ => []
  | .folder p _ _ _ cs => p :: destFolderPathsC cs

/-- destFolderPaths over a children mapping. -/
def destFolderPathsC : Children → List Str
  | .nil => []
  | .cons _ r rest => destFolderPaths r ++ destFolderPathsC rest
end

mutual
/-- For every folder node of a source tree whose base_location is set, its
path with the base_location subtracted — the code's own relative-path
computation, collected over the whole tree. -/
def srcRelPaths : Record → List Str
  | .file _ _ _ _ _ => []
  | .folder p b _ _ cs =>
    (match b with
      | some bb => [pyRemove bb p]
      | none => []) ++ srcRelPathsC cs

/-- srcRelPaths over a children mapping. -/
def srcRelPathsC : Children → List Str
  | .nil => []
  | .cons _ r rest => srcRelPaths r ++ srcRelPathsC rest
end

mutual
/-- Drop, at every depth of a record tree, the children whose key fails
validate. -/
def deepFilter (vals : List (Str → Bool)) : Record → Record
  | .file p n m s i => .file p n m s i
  | .folder p b m i cs => .folder p b m i (deepFilterC vals cs)

/-- deepFilter over a children mapping. -/
def deepFilterC (vals : List (Str → Bool)) : Children → Children
  | .nil => .nil
  | .cons k r rest =>
    if validate vals k then .cons k (deepFilter vals r) (deepFilterC vals rest)
    else deepFilterC vals rest
end

/-- The paths of the records of the successful outcomes of a trace. -/
def okPaths : List (Except Err Record) → List Str
  | [] => []
  | .ok r :: rest => Record.path r :: okPaths rest
  | .error _ :: rest => okPaths rest

/-- add_child folded over the successful outcomes of a trace. -/
def addAllOk : Record → List (Except Err Record) → Record
  | acc, [] => acc
  | acc, .ok r :: rest => addAllOk (addChildR acc r) rest
  | acc, .error _ :: rest => addAllOk acc rest

/-- An outcome the with_content loop tolerates: either a success or the
UnableToAccessException its except clause catches. -/
def okOrUnable : Except Err Record → Bool
  | .ok _ => true
  | .error (.unableToAccess _) => true
  | .error _ => false

theorem startsWith_iff (pat : Str) : ∀ s : Str, startsWith pat s = true ↔ ∃ t, s = pat ++ t := by
  induction pat with
  | nil => intro s; simp [startsWith]
  | cons p ps ih =>
    intro s
    cases s with
    | nil => simp [startsWith]
    | cons c cs =>
      simp only [startsWith, Bool.and_eq_true, beq_iff_eq, ih, List.cons_append,
        List.cons.injEq]
      constructor
      · rintro ⟨rfl, t, rfl⟩; exact ⟨t, rfl, rfl⟩
      · rintro ⟨t, rfl, rfl⟩; exact ⟨rfl, t, rfl⟩

theorem pyRemoveGo_no_occurrence (pat : Str) :
    ∀ (fuel : Nat) (s : Str), s.length ≤ fuel → occursIn pat s = false →
      pyRemoveGo pat fuel s = s := by
  intro fuel
  induction fuel with
  | zero =>
    intro s hs _
    cases s with
    | nil => rfl
    | cons c rest => simp at hs
  | succ f ih =>
    intro s hs h
    cases s with
    | nil => rfl
    | cons c rest =>
      have h' : startsWith pat (c :: rest) = false ∧ occursIn pat rest = false := by
        simpa [occursIn] using h
      simp only [pyRemoveGo, h'.1, Bool.false_eq_true, if_false]
      have := ih rest (by simpa using Nat.le_of_succ_le_succ hs) h'.2
      rw [this]

theorem occursIn_of_empty_pat (s : Str) : occursIn [] s = true := by
  cases s <;> simp [occursIn, startsWith]

theorem pyRemove_no_occurrence (pat s : Str) (h : occursIn pat s = false) :
    pyRemove pat s = s := by
  have hpat : pat ≠ [] := by
    rintro rfl
    rw [occursIn_of_empty_pat] at h
    simp at h
  unfold pyRemove
  rw [if_neg (by simpa [List.isEmpty_iff] using hpat)]
  exact pyRemoveGo_no_occurrence pat s.length s le_rfl h

theorem pyRemove_strip_leading (pat s : Str) (hpat : pat ≠ [])
    (hpre : startsWith pat s = true)
    (hrest : occursIn pat (List.drop pat.length s) = false) :
    pyRemove pat s = List.drop pat.length s := by
  cases s with
  | nil =>
    obtain ⟨t, ht⟩ := (startsWith_iff pat []).mp hpre
    cases pat with
    | nil => exact absurd rfl hpat
    | cons p ps => simp at ht
  | cons c rest =>
    unfold pyRemove
    rw [if_neg (by simpa [List.isEmpty_iff] using hpat)]
    have hlen : (List.drop pat.length (c :: rest)).length ≤ rest.length := by
      have h1 : 1 ≤ pat.length := List.length_pos.mpr hpat
      simp [List.length_drop]
      omega
    calc pyRemoveGo pat (c :: rest).length (c :: rest)
        = pyRemoveGo pat rest.length (List.drop pat.length (c :: rest)) := by
          simp only [List.length_cons, pyRemoveGo, hpre, if_true]
      _ = List.drop pat.length (c :: rest) :=
          pyRemoveGo_no_occurrence pat rest.length _ hlen hrest

theorem validateLoop_eq_all (p : Str) : ∀ vs : List (Str → Bool),
    validateLoop p vs = vs.all (fun v => v p) := by
  intro vs
  induction vs with
  | nil => rfl
  | cons v rest ih => cases hv : v p <;> simp [validateLoop, hv, ih]

/-- C9: validate returns true iff the validator list is empty or every
predicate accepts the path, rejecting as soon as any predicate rejects: it
equals the pure logical AND of all predicates at the path, and is therefore
invariant under every permutation of the validator list. -/
theorem validate_pure_and :
    (∀ (vs : List (Str → Bool)) (p : Str), validate vs p = vs.all (fun v => v p)) ∧
    (∀ (vs vs' : List (Str → Bool)) (p : Str), vs.Perm vs' →
      validate vs p = validate vs' p) := by
  have h1 : ∀ (vs : List (Str → Bool)) (p : Str), validate vs p = vs.all (fun v => v p) := by
    intro vs p
    cases vs with
    | nil => rfl
    | cons v rest => simp [validate, validateLoop_eq_all, List.isEmpty]
  refine ⟨h1, ?_⟩
  intro vs vs' p hperm
  rw [h1, h1]
  cases ha : vs.all (fun v => v p) <;> cases hb : vs'.all (fun v => v p) <;> try rfl
  · rw [List.all_eq_false] at ha
    rw [List.all_eq_true] at hb
    obtain ⟨x, hx, hfx⟩ := ha
    exact absurd (hb x (hperm.mem_iff.mp hx)) (by simp [hfx])
  · rw [List.all_eq_true] at ha
    rw [List.all_eq_false] at hb
    obtain ⟨x, hx, hfx⟩ := hb
    exact absurd (ha x (hperm.mem_iff.mpr hx)) (by simp [hfx])

/-- Witness for C9 at concrete validators: a rejecting and an accepting
predicate, and the swap permutation of the two. -/
theorem validate_pure_and_witness :
    validate [fun _ => true, fun s => s.isEmpty] "ab".data
      = List.all [fun _ => true, fun s : Str => s.isEmpty] (fun v => v "ab".data) ∧
    validate [fun _ => true, fun s => s.isEmpty] "ab".data
      = validate [fun s => s.isEmpty, fun _ => true] "ab".data :=
  ⟨validate_pure_and.1 [fun _ => true, fun s => s.isEmpty] "ab".data,
    validate_pure_and.2 [fun _ => true, fun s => s.isEmpty]
      [fun s => s.isEmpty, fun _ => true] "ab".data (List.Perm.swap _ _ _)⟩

theorem takeWhile_all {p : Char → Bool} : ∀ l : List Char, (∀ x ∈ l, p x = true) →
    l.takeWhile p = l := by
  intro l
  induction l with
  | nil => intro _; rfl
  | cons a rest ih =>
    intro h
    rw [List.takeWhile_cons, if_pos (h a (by simp)), ih (fun x hx => h x (by simp [hx]))]

theorem takeWhile_append_all {p : Char → Bool} : ∀ l l' : List Char,
    (∀ x ∈ l, p x = true) → (l ++ l').takeWhile p = l ++ l'.takeWhile p := by
  intro l l' h
  induction l with
  | nil => rfl
  | cons a rest ih =>
    rw [List.cons_append, List.takeWhile_cons, if_pos (h a (by simp)),
      ih (fun x hx => h x (by simp [hx])), List.cons_append]

theorem takeWhile_append_stop {p : Char → Bool} : ∀ l l' : List Char,
    (∃ x ∈ l, p x = false) → (l ++ l').takeWhile p = l.takeWhile p := by
  intro l l' h
  induction l with
  | nil => obtain ⟨x, hx, _⟩ := h; simp at hx
  | cons a rest ih =>
    rw [List.cons_append, List.takeWhile_cons, List.takeWhile_cons]
    cases hp : p a with
    | false => rfl
    | true =>
      simp only [if_pos rfl]
      obtain ⟨x, hx, hpx⟩ := h
      rcases List.mem_cons.mp hx with rfl | hx'
      · rw [hp] at hpx; cases hpx
      · rw [ih ⟨x, hx', hpx⟩]

theorem afterLastDot_no_dot (s : Str) (h : '.' ∉ s) : afterLastDot s = s := by
  unfold afterLastDot
  rw [takeWhile_all _ (fun x hx => by
    have : x ∈ s := List.mem_reverse.mp hx
    simp only [bne_iff_ne, ne_eq]
    exact fun he => h (he ▸ this)), List.reverse_reverse]

theorem afterLastDot_cons (c : Char) (rest : Str) :
    afterLastDot (c :: rest) =
      if '.' ∈ rest then afterLastDot rest
      else if c = '.' then rest else c :: rest := by
  by_cases hd : '.' ∈ rest
  · rw [if_pos hd]
    unfold afterLastDot
    rw [List.reverse_cons, takeWhile_append_stop _ _ ⟨'.', List.mem_reverse.mpr hd, by simp⟩]
  · rw [if_neg hd]
    unfold afterLastDot
    rw [List.reverse_cons, takeWhile_append_all _ _ (fun x hx => by
      have : x ∈ rest := List.mem_reverse.mp hx
      simp only [bne_iff_ne, ne_eq]
      exact fun he => hd (he ▸ this))]
    by_cases hc : c = '.'
    · subst hc
      simp [List.takeWhile_cons]
    · simp [List.takeWhile_cons, hc]

theorem splitDotAux_ne_nil : ∀ (s acc : Str), splitDotAux acc s ≠ [] := by
  intro s
  induction s with
  | nil => intro acc; simp [splitDotAux]
  | cons c rest ih =>
    intro acc
    by_cases hc : c = '.' <;> simp [splitDotAux, hc, ih]

theorem getLastD_default_irrel : ∀ (l : List Str) (d d' : Str), l ≠ [] →
    l.getLastD d = l.getLastD d' := by
  intro l
  induction l with
  | nil => intro d d' h; exact absurd rfl h
  | cons a rest ih =>
    intro d d' _
    cases rest with
    | nil => rfl
    | cons b t =>
      have h1 := List.getLastD_cons d a (b :: t)
      have h2 := List.getLastD_cons d' a (b :: t)
      rw [h1, h2]

theorem splitDotAux_getLast : ∀ (s acc : Str),
    (splitDotAux acc s).getLastD [] =
      if '.' ∈ s then afterLastDot s else acc.reverse ++ s := by
  intro s
  induction s with
  | nil => intro acc; simp [splitDotAux]
  | cons c rest ih =>
    intro acc
    by_cases hc : c = '.'
    · subst hc
      rw [show splitDotAux acc ('.' :: rest) = acc.reverse :: splitDotAux [] rest by
        simp [splitDotAux]]
      rw [if_pos (show '.' ∈ ('.' :: rest) by simp)]
      rw [List.getLastD_cons [] acc.reverse (splitDotAux [] rest)]
      rw [getLastD_default_irrel (splitDotAux [] rest) acc.reverse []
        (splitDotAux_ne_nil rest [])]
      rw [ih [], afterLastDot_cons]
      by_cases hd : '.' ∈ rest
      · rw [if_pos hd, if_pos hd]
      · rw [if_neg hd, if_neg hd, if_pos rfl]
        simp
    · rw [show splitDotAux acc (c :: rest) = splitDotAux (c :: acc) rest by
        simp [splitDotAux, hc]]
      rw [ih (c :: acc)]
      by_cases hd : '.' ∈ rest
      · rw [if_pos hd, if_pos (show '.' ∈ (c :: rest) by simp [hd]), afterLastDot_cons,
          if_pos hd]
      · rw [if_neg hd,
          if_neg (show '.' ∉ (c :: rest) by
            simp only [List.mem_cons, not_or]
            exact ⟨fun he => hc he.symm, hd⟩),
          List.reverse_cons]
        simp

theorem splitDot_getLast (s : Str) : (splitDot s).getLastD [] = afterLastDot s := by
  rw [splitDot, splitDotAux_getLast s []]
  by_cases h : '.' ∈ s
  · rw [if_pos h]
  · rw [if_neg h, afterLastDot_no_dot s h, List.reverse_nil, List.nil_append]

theorem formatLoop_eq_false_iff (fm : Str) : ∀ l : List Str,
    formatLoop fm l = false ↔ fm ∈ l := by
  intro l
  induction l with
  | nil => simp [formatLoop]
  | cons f rest ih => by_cases h : fm = f <;> simp [formatLoop, h, ih]

/-- C10: the format filter compares the piece after the final dot against the
excluded-format set; a path containing no dot is compared whole, so a dotless
path equal to an excluded format string (such as a file named pyc) is
rejected even though it has no extension. -/
theorem format_validator_final_dot :
    (∀ path : Str, '.' ∉ path → (format_validator path = false ↔ path ∈ EXCLUDED_FORMATS)) ∧
    (∀ path : Str, '.' ∈ path →
      (format_validator path = false ↔ afterLastDot path ∈ EXCLUDED_FORMATS)) ∧
    format_validator "pyc".data = false := by
  refine ⟨?_, ?_, by decide⟩
  · intro path h
    unfold format_validator
    rw [splitDot_getLast, afterLastDot_no_dot _ h, formatLoop_eq_false_iff]
  · intro path _
    unfold format_validator
    rw [splitDot_getLast, formatLoop_eq_false_iff]

/-- Witness for C10: the dotless path "pyc" is compared whole and rejected;
the dotted path "a.pyc" is compared by its final piece and rejected. -/
theorem format_validator_final_dot_witness :
    (format_validator "pyc".data = false ↔ "pyc".data ∈ EXCLUDED_FORMATS) ∧
    (format_validator "a.pyc".data = false ↔ afterLastDot "a.pyc".data ∈ EXCLUDED_FORMATS) :=
  ⟨format_validator_final_dot.1 "pyc".data (by decide),
    format_validator_final_dot.2.1 "a.pyc".data (by decide)⟩

theorem addChildR_path (a c : Record) : Record.path (addChildR a c) = Record.path a := by
  cases a <;> rfl

theorem upload_children_path (vals : List (Str → Bool)) :
    ∀ (cs : Children) (fs : FS) (nb : Str) (acc : Record) (fs' : FS) (d : Record),
      upload_children vals fs cs nb acc = (fs', .ok d) →
      Record.path d = Record.path acc
  | .nil, fs, nb, acc, fs', d, h => by
    simp only [upload_children, Prod.mk.injEq, Except.ok.injEq] at h
    rw [← h.2]
  | .cons k r rest, fs, nb, acc, fs', d, h => by
    simp only [upload_children] at h
    split at h
    · split at h
      · exact (upload_children_path vals rest _ _ _ _ _ h).trans (addChildR_path acc _)
      · exact upload_children_path vals rest _ _ _ _ _ h
      · simp at h
    · exact upload_children_path vals rest _ _ _ _ _ h
termination_by cs => sizeOf cs

theorem upload_folder_dest_path (vals : List (Str → Bool)) (fs : FS) (p b : Str)
    (m : Nat) (cs : Children) (R : Str) (wc : Bool) (fs' : FS) (d : Record)
    (h : upload_folder vals fs p (some b) m cs R wc = (fs', .ok d)) :
    Record.path d = R ++ pyRemove b p := by
  simp only [upload_folder] at h
  split at h
  · simp at h
  · split at h
    · simp at h
    · split at h
      · simp at h
      · split at h
        · exact (upload_children_path vals cs _ R _ fs' d h).trans rfl
        · simp only [Prod.mk.injEq, Except.ok.injEq] at h
          rw [← h.2]
          rfl

theorem upload_folder_some_base_ne_nil (vals : List (Str → Bool)) (fs : FS) (p b : Str)
    (m : Nat) (cs : Children) (R : Str) (wc : Bool) (fs' : FS) (d : Record)
    (h : upload_folder vals fs p (some b) m cs R wc = (fs', .ok d)) : b ≠ [] := by
  rintro rfl
  simp [upload_folder] at h

/-- C3: a folder record with unset (None) or empty base_location makes
upload_folder raise NoBasePathSpecifiedException before any destination-side
folder or file is created — the filesystem state is returned unchanged — and
the same exception arising for a validated child folder in the with_content
loop propagates out of the loop instead of being converted into a
skip-and-continue outcome. -/
theorem upload_folder_no_base_path (vals : List (Str → Bool)) (fs : FS) (p : Str)
    (m : Nat) (cs : Children) (R : Str) (wc : Bool) :
    upload_folder vals fs p none m cs R wc = (fs, .error (.noBasePath p)) ∧
    upload_folder vals fs p (some []) m cs R wc = (fs, .error (.noBasePath p)) ∧
    (∀ (k cp : Str) (cm ci : Nat) (ccs rest : Children) (nb : Str) (acc : Record),
      validate vals k = true →
      upload_children vals fs (.cons k (.folder cp none cm ci ccs) rest) nb acc
        = (fs, .error (.noBasePath cp))) := by
  refine ⟨by simp [upload_folder], by simp [upload_folder], ?_⟩
  intro k cp cm ci ccs rest nb acc hv
  simp [upload_children, hv, child_step, upload_folder]

/-- Witness for C3: a concrete folder with no base path fails fatally and a
concrete parent run propagates the child's NoBasePathSpecifiedException. -/
theorem upload_folder_no_base_path_witness :
    upload_folder [] ⟨[], [], [], [], [], [], [], []⟩ "/a".data none 0 .nil "/dst".data true
      = (⟨[], [], [], [], [], [], [], []⟩, .error (.noBasePath "/a".data)) ∧
    upload_children [] ⟨[], [], [], [], [], [], [], []⟩
        (.cons "/a/c".data (.folder "/a/c".data none 0 0 .nil) .nil) "/dst".data
        (.folder "/dst/a".data none 0 0 .nil)
      = (⟨[], [], [], [], [], [], [], []⟩, .error (.noBasePath "/a/c".data)) :=
  ⟨(upload_folder_no_base_path [] _ "/a".data 0 .nil "/dst".data true).1,
    (upload_folder_no_base_path [] _ "/a".data 0 .nil "/dst".data true).2.2
      "/a/c".data "/a/c".data 0 0 .nil .nil "/dst".data
      (.folder "/dst/a".data none 0 0 .nil) (by decide)⟩

/-- C1 is false as stated: with baseLocation "/b", which is not a textual
prefix of the source path "/a/b", the claim predicts that stripping silently
does not occur and the destination is "/dst" ++ "/a/b"; the code's
str.replace removes the inner occurrence instead and materializes "/dst/a". -/
theorem upload_folder_prefix_strip_cex :
    (upload_folder [] ⟨[], [], [], [], [], [], [], []⟩ "/a/b".data (some "/b".data) 5 .nil
        "/dst".data false).2
      = .ok (.folder "/dst/a".data none 5 0 .nil) ∧
    startsWith "/b".data "/a/b".data = false ∧
    "/dst/a".data ≠ "/dst".data ++ "/a/b".data := by
  refine ⟨?_, by decide, by decide⟩
  simp [upload_folder, makedirs_step, get_folder_stat, lookupA, setA, pyRemove, pyRemoveGo,
    startsWith]

/-- C1 (amended): the destination folder path equals destRootPath ++
relativePath where relativePath removes every non-overlapping occurrence of
baseLocation from the source path (Python str.replace semantics, not prefix
stripping); the path is appended unmodified exactly when baseLocation occurs
nowhere in it, and when baseLocation occurs only as a leading prefix the
computation coincides with prefix removal. -/
theorem upload_folder_string_subtraction (vals : List (Str → Bool)) (fs : FS)
    (p b : Str) (m : Nat) (cs : Children) (R : Str) (wc : Bool) (fs' : FS) (d : Record)
    (h : upload_folder vals fs p (some b) m cs R wc = (fs', .ok d)) :
    Record.path d = R ++ pyRemove b p ∧
    (occursIn b p = false → Record.path d = R ++ p) ∧
    (startsWith b p = true → occursIn b (List.drop b.length p) = false →
      Record.path d = R ++ List.drop b.length p) := by
  have hd := upload_folder_dest_path vals fs p b m cs R wc fs' d h
  refine ⟨hd, ?_, ?_⟩
  · intro h1
    rw [hd, pyRemove_no_occurrence b p h1]
  · intro h1 h2
    rw [hd, pyRemove_strip_leading b p (upload_folder_some_base_ne_nil vals fs p b m cs R
      wc fs' d h) h1 h2]

/-- Witness for C1 (amended) at two concrete runs: a base that occurs nowhere
in the path leaves the path unmodified, and a base occurring once as a prefix
yields genuine prefix removal. -/
theorem upload_folder_string_subtraction_witness :
    Record.path (.folder "/dst/a/b".data none 5 0 .nil) = "/dst".data ++ "/a/b".data ∧
    Record.path (.folder "/dst/b".data none 5 0 .nil)
      = "/dst".data ++ List.drop ("/a".data).length "/a/b".data :=
  ⟨(upload_folder_string_subtraction [] ⟨[], [], [], [], [], [], [], []⟩ "/a/b".data
      "/zz".data 5 .nil "/dst".data false
      ⟨["/dst/a/b".data], [], [("/dst/a/b".data, 5)], [], [], [], [], []⟩
      (.folder "/dst/a/b".data none 5 0 .nil)
      (by simp [upload_folder, makedirs_step, get_folder_stat, lookupA, setA, pyRemove,
        pyRemoveGo, startsWith])).2.1 (by decide),
    (upload_folder_string_subtraction [] ⟨[], [], [], [], [], [], [], []⟩ "/a/b".data
      "/a".data 5 .nil "/dst".data false
      ⟨["/dst/b".data], [], [("/dst/b".data, 5)], [], [], [], [], []⟩
      (.folder "/dst/b".data none 5 0 .nil)
      (by simp [upload_folder, makedirs_step, get_folder_stat, lookupA, setA, pyRemove,
        pyRemoveGo, startsWith])).2.2 (by decide) (by decide)⟩

theorem get_folder_stat_ok_mem (fs : FS) (q : Str) (x : Nat × Nat)
    (h : get_folder_stat fs q = .ok x) : q ∈ fs.dirs := by
  unfold get_folder_stat at h
  split at h
  · simp at h
  · split at h
    · assumption
    · simp at h

theorem makedirs_step_mem (fs : FS) (p : Str) (m : Nat) (h : p ∈ fs.dirs) :
    makedirs_step fs p m = (fs, none) := by
  unfold makedirs_step
  rw [if_pos (Or.inl h)]

/-- C7: folder materialization is idempotent — the makedirs step on an
already-existing directory raises nothing, changes nothing and duplicates
nothing, performing it twice in a row never errors, it preserves
duplicate-freeness of the directory set, and a second upload_folder call with
the same source folder and destination root returns the same folder record,
reusing the directory the first call created and leaving the filesystem state
exactly as the first call left it. -/
theorem folder_materialization_idempotent :
    (∀ (fs : FS) (p : Str) (m : Nat), p ∈ fs.dirs → makedirs_step fs p m = (fs, none)) ∧
    (∀ (fs : FS) (p : Str) (m m' : Nat), p ∉ fs.deniedDirs →
      (makedirs_step fs p m).2 = none ∧
      makedirs_step (makedirs_step fs p m).1 p m' = ((makedirs_step fs p m).1, none)) ∧
    (∀ fs : FS, fs.dirs.Nodup → ∀ (p : Str) (m : Nat),
      (makedirs_step fs p m).1.dirs.Nodup) ∧
    (∀ (vals : List (Str → Bool)) (fs : FS) (p b : Str) (m : Nat) (cs : Children)
        (R : Str) (fs1 : FS) (d : Record),
      upload_folder vals fs p (some b) m cs R false = (fs1, .ok d) →
      upload_folder vals fs1 p (some b) m cs R false = (fs1, .ok d)) := by
  refine ⟨makedirs_step_mem, ?_, ?_, ?_⟩
  · intro fs p m m' hden
    unfold makedirs_step
    by_cases hex : p ∈ fs.dirs ∨ (lookupA fs.files p).isSome
    · rw [if_pos hex]
      exact ⟨rfl, by rw [if_pos hex]⟩
    · rw [if_neg hex, if_neg hden]
      refine ⟨rfl, ?_⟩
      rw [if_pos (Or.inl (by simp))]
  · intro fs hnd p m
    unfold makedirs_step
    by_cases hex : p ∈ fs.dirs ∨ (lookupA fs.files p).isSome
    · rw [if_pos hex]; exact hnd
    · rw [if_neg hex]
      by_cases hden : p ∈ fs.deniedDirs
      · rw [if_pos hden]; exact hnd
      · rw [if_neg hden]
        exact List.Nodup.cons (fun hmem => hex (Or.inl hmem)) hnd
  · intro vals fs p b m cs R fs1 d h
    simp only [upload_folder] at h ⊢
    split at h
    · simp at h
    · next hb =>
      split at h
      · simp at h
      · next fs2 heqm =>
        split at h
        · simp at h
        · next dm di heqs =>
          simp only [Bool.false_eq_true, if_false, Prod.mk.injEq, Except.ok.injEq] at h
          obtain ⟨rfl, rfl⟩ := h
          rw [makedirs_step_mem fs2 _ m (get_folder_stat_ok_mem fs2 _ _ heqs)]
          simp [heqs, hb]

/-- Witness for C7 at concrete states: an existing directory, a double
makedirs step, a duplicate-free state, and a concrete double upload_folder
run. -/
theorem folder_materialization_idempotent_witness :
    makedirs_step ⟨["/d".data], [], [], [], [], [], [], []⟩ "/d".data 3
      = (⟨["/d".data], [], [], [], [], [], [], []⟩, none) ∧
    (makedirs_step ⟨[], [], [], [], [], [], [], []⟩ "/e".data 3).2 = none ∧
    (makedirs_step ⟨[], [], [], [], [], [], [], []⟩ "/e".data 3).1.dirs.Nodup ∧
    upload_folder [] ⟨["/dst/a".data], [], [("/dst/a".data, 5)], [], [], [], [], []⟩
        "/a/b".data (some "/b".data) 5 .nil "/dst".data false
      = (⟨["/dst/a".data], [], [("/dst/a".data, 5)], [], [], [], [], []⟩,
          .ok (.folder "/dst/a".data none 5 0 .nil)) :=
  ⟨folder_materialization_idempotent.1 _ "/d".data 3 (by decide),
    (folder_materialization_idempotent.2.1 ⟨[], [], [], [], [], [], [], []⟩ "/e".data 3 3
      (by decide)).1,
    folder_materialization_idempotent.2.2.1 ⟨[], [], [], [], [], [], [], []⟩
      (by decide) "/e".data 3,
    folder_materialization_idempotent.2.2.2 [] ⟨[], [], [], [], [], [], [], []⟩
      "/a/b".data "/b".data 5 .nil "/dst".data _ _
      (by simp [upload_folder, makedirs_step, get_folder_stat, lookupA, setA, pyRemove,
        pyRemoveGo, startsWith])⟩

theorem lookupA_setA_eq {α : Type} : ∀ (l : List (Str × α)) (k : Str) (v : α),
    lookupA (setA l k v) k = some v := by
  intro l k v
  induction l with
  | nil => simp [setA, lookupA]
  | cons kv rest ih =>
    rcases kv with ⟨k1, v1⟩
    by_cases h : k1 = k
    · simp [setA, h, lookupA]
    · simp [setA, h, lookupA, ih]

theorem lookupA_setA_ne {α : Type} : ∀ (l : List (Str × α)) (k q : Str) (v : α),
    k ≠ q → lookupA (setA l k v) q = lookupA l q := by
  intro l k q v hne
  induction l with
  | nil =>
    simp only [setA, lookupA]
    rw [if_neg hne]
  | cons kv rest ih =>
    rcases kv with ⟨k1, v1⟩
    by_cases h : k1 = k
    · subst h
      simp only [setA, if_pos rfl, lookupA]
      rw [if_neg hne, if_neg hne]
    · simp only [setA, if_neg h, lookupA]
      by_cases hq : k1 = q
      · rw [if_pos hq, if_pos hq]
      · rw [if_neg hq, if_neg hq, ih]

/-- C5: as far as the record model permits (records/file.py as shipped
rejects the stat payload its callers pass, see the doc comments on
upload_file), a successful upload_file returns a File record describing the
destination-side result whose size equals the number of bytes actually
written to the destination file, the destination file carries the source's
modification timestamp via os.utime, and a write failure raises
UnableToAccessException. -/
theorem upload_file_dest_record :
    (∀ (fs : FS) (src nm : Str) (m : Nat) (rp : Str) (content : List Nat),
      (rp ++ '/' :: nm) ∉ fs.deniedWrites →
      src ∉ fs.deniedReads →
      src ≠ rp ++ '/' :: nm →
      lookupA fs.files src = some content →
      ∃ fs' : FS,
        upload_file fs src nm m rp
          = (fs', .ok (.file (rp ++ '/' :: nm) nm m content.length
              ((lookupA fs'.inos (rp ++ '/' :: nm)).getD 0))) ∧
        lookupA fs'.files (rp ++ '/' :: nm) = some content ∧
        lookupA fs'.mtimes (rp ++ '/' :: nm) = some m) ∧
    (∀ (fs : FS) (src nm : Str) (m : Nat) (rp : Str),
      (rp ++ '/' :: nm) ∈ fs.deniedWrites →
      upload_file fs src nm m rp = (fs, .error (.unableToAccess (rp ++ '/' :: nm)))) := by
  constructor
  · intro fs src nm m rp content hw hr hne hsrc
    have hread : get_file_content { fs with files := setA fs.files (rp ++ '/' :: nm) [] }
        src = .ok content := by
      unfold get_file_content
      rw [if_neg hr, lookupA_setA_ne _ _ _ _ (fun h => hne h.symm), hsrc]
    have hrun : upload_file fs src nm m rp
        = ({ fs with
              files := setA (setA fs.files (rp ++ '/' :: nm) []) (rp ++ '/' :: nm) content
              mtimes := setA fs.mtimes (rp ++ '/' :: nm) m },
            .ok (.file (rp ++ '/' :: nm) nm m content.length
              ((lookupA fs.inos (rp ++ '/' :: nm)).getD 0))) := by
      unfold upload_file
      rw [if_neg hw]
      simp [hread]
    exact ⟨_, hrun, lookupA_setA_eq _ _ _, lookupA_setA_eq _ _ _⟩
  · intro fs src nm m rp hw
    unfold upload_file
    rw [if_pos hw]

/-- Witness for C5: a concrete successful copy and a concrete denied write. -/
theorem upload_file_dest_record_witness :
    (∃ fs' : FS,
      upload_file ⟨[], [("/s/x".data, [7, 8])], [], [], [], [], [], []⟩ "/s/x".data
          "x".data 42 "/dst".data
        = (fs', .ok (.file ("/dst".data ++ '/' :: "x".data) "x".data 42 2
            ((lookupA fs'.inos ("/dst".data ++ '/' :: "x".data)).getD 0))) ∧
      lookupA fs'.files ("/dst".data ++ '/' :: "x".data) = some [7, 8] ∧
      lookupA fs'.mtimes ("/dst".data ++ '/' :: "x".data) = some 42) ∧
    upload_file ⟨[], [], [], [], [], [], ["/dst/x".data], []⟩ "/s/x".data "x".data 42
        "/dst".data
      = (⟨[], [], [], [], [], [], ["/dst/x".data], []⟩,
          .error (.unableToAccess ("/dst".data ++ '/' :: "x".data))) :=
  ⟨upload_file_dest_record.1 ⟨[], [("/s/x".data, [7, 8])], [], [], [], [], [], []⟩
      "/s/x".data "x".data 42 "/dst".data [7, 8] (by decide) (by decide) (by decide)
      (by decide),
    upload_file_dest_record.2 ⟨[], [], [], [], [], [], ["/dst/x".data], []⟩ "/s/x".data
      "x".data 42 "/dst".data (by decide)⟩

theorem mk_file_ok_path (fs : FS) (q : Str) (r : Record) (h : mk_file fs q = .ok r) :
    Record.path r = q := by
  unfold mk_file at h
  split at h
  · simp at h
  all_goals (cases h; rfl)

theorem mk_folder_ok_path (fs : FS) (q : Str) (base : Option Str) (r : Record)
    (h : mk_folder fs q base = .ok r) : Record.path r = q := by
  unfold mk_folder at h
  split at h
  · simp at h
  all_goals (cases h; rfl)

theorem folder_content_loop_paths (vals : List (Str → Bool)) (fs : FS) (fp : Str)
    (base : Option Str) : ∀ (names : List Str) (r : Record),
      r ∈ folder_content_loop vals fs fp base names →
      ∃ nm ∈ names, validate vals nm = true ∧ Record.path r = fp ++ '/' :: nm := by
  intro names
  induction names with
  | nil => intro r hr; simp [folder_content_loop] at hr
  | cons nm rest ih =>
    intro r hr
    simp only [folder_content_loop] at hr
    split at hr
    · next hv =>
      split at hr
      · split at hr
        · next rr heq =>
          rcases List.mem_cons.mp hr with rfl | h'
          · exact ⟨nm, by simp, hv, mk_file_ok_path fs _ r heq⟩
          · obtain ⟨nm', hmem, hv', hp⟩ := ih r h'
            exact ⟨nm', by simp [hmem], hv', hp⟩
        · obtain ⟨nm', hmem, hv', hp⟩ := ih r hr
          exact ⟨nm', by simp [hmem], hv', hp⟩
      · split at hr
        · next rr heq =>
          rcases List.mem_cons.mp hr with rfl | h'
          · exact ⟨nm, by simp, hv, mk_folder_ok_path fs _ base r heq⟩
          · obtain ⟨nm', hmem, hv', hp⟩ := ih r h'
            exact ⟨nm', by simp [hmem], hv', hp⟩
        · obtain ⟨nm', hmem, hv', hp⟩ := ih r hr
          exact ⟨nm', by simp [hmem], hv', hp⟩
    · obtain ⟨nm', hmem, hv', hp⟩ := ih r hr
      exact ⟨nm', by simp [hmem], hv', hp⟩

theorem upload_children_nil (vals : List (Str → Bool)) (fs : FS) (nb : Str) (acc : Record) :
    upload_children vals fs .nil nb acc = (fs, .ok acc) := by
  rw [upload_children]

theorem upload_children_cons (vals : List (Str → Bool)) (fs : FS) (k : Str) (r : Record)
    (rest : Children) (nb : Str) (acc : Record) :
    upload_children vals fs (.cons k r rest) nb acc
      = if validate vals k then
          match child_step vals fs r nb (Record.path acc) with
          | (fs1, .ok c) => upload_children vals fs1 rest nb (addChildR acc c)
          | (fs1, .error (.unableToAccess _)) => upload_children vals fs1 rest nb acc
          | (fs1, .error e) => (fs1, .error e)
        else upload_children vals fs rest nb acc := by
  rw [upload_children]

theorem upload_folder_eq (vals : List (Str → Bool)) (fs : FS) (p : Str) (b : Option Str)
    (m : Nat) (cs : Children) (R : Str) (wc : Bool) :
    upload_folder vals fs p b m cs R wc
      = match b with
        | none => (fs, .error (.noBasePath p))
        | some bb =>
          if bb = [] then (fs, .error (.noBasePath p))
          else
            match makedirs_step fs (R ++ pyRemove bb p) m with
            | (fs1, some e) => (fs1, .error e)
            | (fs1, none) =>
              match get_folder_stat fs1 (R ++ pyRemove bb p) with
              | .error e => (fs1, .error e)
              | .ok (dm, di) =>
                if wc then
                  upload_children vals fs1 cs R
                    (.folder (R ++ pyRemove bb p) none dm di .nil)
                else (fs1, .ok (.folder (R ++ pyRemove bb p) none dm di .nil)) := by
  rw [upload_folder.eq_def]

theorem upload_folder_filter_of_children_eq (vals : List (Str → Bool)) (fs : FS)
    (p : Str) (b : Option Str) (m : Nat) (cs cs' : Children) (R : Str) (wc : Bool)
    (hch : ∀ (fs1 : FS) (acc : Record),
      upload_children vals fs1 cs' R acc = upload_children vals fs1 cs R acc) :
    upload_folder vals fs p b m cs' R wc = upload_folder vals fs p b m cs R wc := by
  rw [upload_folder_eq, upload_folder_eq]
  cases b with
  | none => rfl
  | some bb =>
    dsimp only
    by_cases hbb : bb = []
    · rw [if_pos hbb, if_pos hbb]
    · rw [if_neg hbb, if_neg hbb]
      cases hm : makedirs_step fs (R ++ pyRemove bb p) m with
      | mk fs1 e =>
        cases e with
        | some err => rfl
        | none =>
          dsimp only
          cases hs : get_folder_stat fs1 (R ++ pyRemove bb p) with
          | error e2 => rfl
          | ok x =>
            rcases x with ⟨dm, di⟩
            dsimp only
            cases wc with
            | false => rfl
            | true => exact hch fs1 _

theorem child_step_file (vals : List (Str → Bool)) (fs : FS) (p nm : Str) (m s i : Nat)
    (nb dp : Str) :
    child_step vals fs (.file p nm m s i) nb dp = upload_file fs p nm m dp := by
  rw [child_step.eq_def]

theorem child_step_folder (vals : List (Str → Bool)) (fs : FS) (p : Str) (b : Option Str)
    (m i : Nat) (ccs : Children) (nb dp : Str) :
    child_step vals fs (.folder p b m i ccs) nb dp
      = upload_folder vals fs p b m ccs nb true := by
  rw [child_step.eq_def]

theorem sizeOf_record_pos (r : Record) : 0 < sizeOf r := by
  cases r <;> simp_arith

theorem sizeOf_children_pos (cs : Children) : 0 < sizeOf cs := by
  cases cs <;> simp_arith

theorem upload_children_deepFilter_aux (vals : List (Str → Bool)) :
    ∀ n : Nat, ∀ cs : Children, sizeOf cs < n →
      ∀ (fs : FS) (nb : Str) (acc : Record),
        upload_children vals fs (deepFilterC vals cs) nb acc
          = upload_children vals fs cs nb acc := by
  intro n
  induction n with
  | zero => intro cs h; omega
  | succ n ih =>
    intro cs hsz fs nb acc
    cases cs with
    | nil => rfl
    | cons k r rest =>
      have hspec : sizeOf (Children.cons k r rest)
          = 1 + sizeOf k + sizeOf r + sizeOf rest := by simp
      have hr0 := sizeOf_record_pos r
      have hrest0 := sizeOf_children_pos rest
      have hszr : sizeOf r < n := by omega
      have hszrest : sizeOf rest < n := by omega
      by_cases hv : validate vals k = true
      · rw [show deepFilterC vals (.cons k r rest)
            = .cons k (deepFilter vals r) (deepFilterC vals rest) from by
          simp [deepFilterC, hv]]
        rw [upload_children_cons, upload_children_cons, if_pos hv, if_pos hv]
        have hstep : child_step vals fs (deepFilter vals r) nb (Record.path acc)
            = child_step vals fs r nb (Record.path acc) := by
          cases r with
          | file p nm m s i => rfl
          | folder p b m i ccs =>
            have hccs : sizeOf (Record.folder p b m i ccs)
                = 1 + sizeOf p + sizeOf b + m + i + sizeOf ccs := by simp
            have hszccs : sizeOf ccs < n := by
              have hp0 : 0 < sizeOf p := by cases p <;> simp_arith
              omega
            rw [show deepFilter vals (Record.folder p b m i ccs)
                = Record.folder p b m i (deepFilterC vals ccs) from rfl]
            rw [child_step_folder, child_step_folder]
            exact upload_folder_filter_of_children_eq vals fs p b m ccs
              (deepFilterC vals ccs) nb true
              (fun fs1 acc1 => ih ccs hszccs fs1 nb acc1)
        rw [hstep]
        cases hcs : child_step vals fs r nb (Record.path acc) with
        | mk fs1 res =>
          cases res with
          | ok c => exact ih rest hszrest fs1 nb (addChildR acc c)
          | error e =>
            cases e with
            | unableToAccess q => exact ih rest hszrest fs1 nb acc
            | noBasePath q => rfl
            | recordNotFound q => rfl
            | notFile q => rfl
            | notFolder q => rfl
            | dropboxApi q => rfl
      · rw [show deepFilterC vals (.cons k r rest) = deepFilterC vals rest from by
          simp [deepFilterC, hv]]
        rw [ih rest hszrest fs nb acc, upload_children_cons, if_neg hv]

theorem upload_folder_deepFilter (vals : List (Str → Bool)) (fs : FS) (p : Str)
    (b : Option Str) (m : Nat) (cs : Children) (R : Str) (wc : Bool) :
    upload_folder vals fs p b m (deepFilterC vals cs) R wc
      = upload_folder vals fs p b m cs R wc :=
  upload_folder_filter_of_children_eq vals fs p b m cs (deepFilterC vals cs) R wc
    (fun fs1 acc => upload_children_deepFilter_aux vals (sizeOf cs + 1) cs
      (Nat.lt_succ_self _) fs1 R acc)

/-- C6: a path that fails the active validation filters never yields a stored
record. Enumeration instantiates records only for entries whose listed name
passes validate, so no record at the corresponding path appears in the
result; and replication is completely unchanged if every child whose key
fails validate is deleted from the source tree at every depth — such
children are never added to any destination children mapping and have no
effect at all. -/
theorem validation_filter_excludes :
    (∀ (vals : List (Str → Bool)) (fs : FS) (fp : Str) (base : Option Str) (nm : Str)
        (r : Record), validate vals nm = false →
        r ∈ get_folder_content vals fs fp base → Record.path r ≠ fp ++ '/' :: nm) ∧
    (∀ (vals : List (Str → Bool)) (fs : FS) (p : Str) (b : Option Str) (m : Nat)
        (cs : Children) (R : Str) (wc : Bool),
        upload_folder vals fs p b m (deepFilterC vals cs) R wc
          = upload_folder vals fs p b m cs R wc) := by
  refine ⟨?_, upload_folder_deepFilter⟩
  intro vals fs fp base nm r hval hmem heq
  obtain ⟨nm', hmem', hval', hp⟩ :=
    folder_content_loop_paths vals fs fp base _ r hmem
  rw [heq] at hp
  have : nm = nm' := by
    have h2 : '/' :: nm = '/' :: nm' := List.append_cancel_left hp
    exact (List.cons.injEq _ _ _ _ ▸ congrArg id h2 : ('/' : Char) = '/' ∧ nm = nm').2
  rw [this, hval'] at hval
  cases hval

/-- Witness for C6: with the format filter active, the listing entry c.pyc is
excluded from enumeration of /s (only /s/a is instantiated), and filtering a
rejected child out of a source tree leaves a concrete replication unchanged. -/
theorem validation_filter_excludes_witness :
    Record.path (.file "/s/a".data "a".data 0 1 0) ≠ "/s".data ++ '/' :: "c.pyc".data ∧
    upload_folder [format_validator] ⟨[], [], [], [], [], [], [], []⟩ "/a".data
        (some "/a".data) 0
        (deepFilterC [format_validator]
          (.cons "/a/x.pyc".data (.file "/a/x.pyc".data "x.pyc".data 0 0 0) .nil))
        "/dst".data true
      = upload_folder [format_validator] ⟨[], [], [], [], [], [], [], []⟩ "/a".data
          (some "/a".data) 0
          (.cons "/a/x.pyc".data (.file "/a/x.pyc".data "x.pyc".data 0 0 0) .nil)
          "/dst".data true :=
  ⟨validation_filter_excludes.1 [format_validator]
      ⟨[], [("/s/a".data, [1]), ("/s/c.pyc".data, [2])], [], [],
        [("/s".data, ["a".data, "c.pyc".data])], [], [], []⟩
      "/s".data none "c.pyc".data (.file "/s/a".data "a".data 0 1 0)
      (by decide) (by decide),
    validation_filter_excludes.2 [format_validator] ⟨[], [], [], [], [], [], [], []⟩
      "/a".data (some "/a".data) 0
      (.cons "/a/x.pyc".data (.file "/a/x.pyc".data "x.pyc".data 0 0 0) .nil)
      "/dst".data true⟩

theorem upload_trace_nil (vals : List (Str → Bool)) (fs : FS) (nb dp : Str) :
    upload_trace vals fs .nil nb dp = [] := by
  rw [upload_trace]

theorem upload_trace_cons (vals : List (Str → Bool)) (fs : FS) (k : Str) (r : Record)
    (rest : Children) (nb dp : Str) :
    upload_trace vals fs (.cons k r rest) nb dp
      = if validate vals k then
          match child_step vals fs r nb dp with
          | (fs1, .ok c) => .ok c :: upload_trace vals fs1 rest nb dp
          | (fs1, .error (.unableToAccess q)) =>
            .error (.unableToAccess q) :: upload_trace vals fs1 rest nb dp
          | (_, .error e) => [.error e]
        else upload_trace vals fs rest nb dp := by
  rw [upload_trace]

theorem addAllOk_cons_ok (acc : Record) (r : Record) (t : List (Except Err Record)) :
    addAllOk acc (.ok r :: t) = addAllOk (addChildR acc r) t := rfl

theorem addAllOk_cons_error (acc : Record) (e : Err) (t : List (Except Err Record)) :
    addAllOk acc (.error e :: t) = addAllOk acc t := rfl

theorem upload_children_eq_trace (vals : List (Str → Bool)) :
    ∀ (cs : Children) (fs : FS) (nb : Str) (acc : Record),
      (∀ e ∈ upload_trace vals fs cs nb (Record.path acc), okOrUnable e = true) →
      ∃ fs' : FS, upload_children vals fs cs nb acc
        = (fs', .ok (addAllOk acc (upload_trace vals fs cs nb (Record.path acc))))
  | .nil, fs, nb, acc, _ => by
    rw [upload_children_nil, upload_trace_nil]
    exact ⟨fs, rfl⟩
  | .cons k r rest, fs, nb, acc, h => by
    rw [upload_children_cons, upload_trace_cons] at *
    by_cases hv : validate vals k = true
    · simp only [if_pos hv] at h ⊢
      cases hcs : child_step vals fs r nb (Record.path acc) with
      | mk fs1 res =>
        rw [hcs] at h
        cases res with
        | ok c =>
          dsimp only at h ⊢
          have hpath : Record.path (addChildR acc c) = Record.path acc := addChildR_path acc c
          obtain ⟨fs', hrec⟩ := upload_children_eq_trace vals rest fs1 nb (addChildR acc c)
            (by
              rw [hpath]
              intro e he
              exact h e (by simp [he]))
          rw [hpath] at hrec
          exact ⟨fs', by rw [hrec, addAllOk_cons_ok]⟩
        | error e =>
          cases e with
          | unableToAccess q =>
            dsimp only at h ⊢
            obtain ⟨fs', hrec⟩ := upload_children_eq_trace vals rest fs1 nb acc
              (fun e he => h e (by simp [he]))
            exact ⟨fs', by rw [addAllOk_cons_error]; exact hrec⟩
          | noBasePath q =>
            dsimp only at h
            exact absurd (h (.error (.noBasePath q)) (by simp)) (by simp [okOrUnable])
          | recordNotFound q =>
            dsimp only at h
            exact absurd (h (.error (.recordNotFound q)) (by simp)) (by simp [okOrUnable])
          | notFile q =>
            dsimp only at h
            exact absurd (h (.error (.notFile q)) (by simp)) (by simp [okOrUnable])
          | notFolder q =>
            dsimp only at h
            exact absurd (h (.error (.notFolder q)) (by simp)) (by simp [okOrUnable])
          | dropboxApi q =>
            dsimp only at h
            exact absurd (h (.error (.dropboxApi q)) (by simp)) (by simp [okOrUnable])
    · simp only [if_neg hv] at h ⊢
      exact upload_children_eq_trace vals rest fs nb acc h
termination_by cs => sizeOf cs

theorem upload_trace_length (vals : List (Str → Bool)) :
    ∀ (cs : Children) (fs : FS) (nb dp : Str),
      (∀ k ∈ Children.keysOf cs, validate vals k = true) →
      (∀ e ∈ upload_trace vals fs cs nb dp, okOrUnable e = true) →
      (upload_trace vals fs cs nb dp).length = cs.size
  | .nil, fs, nb, dp, _, _ => by rw [upload_trace_nil]; rfl
  | .cons k r rest, fs, nb, dp, hval, h => by
    rw [upload_trace_cons] at *
    have hv : validate vals k = true := hval k (by simp [Children.keysOf])
    simp only [if_pos hv] at h ⊢
    cases hcs : child_step vals fs r nb dp with
    | mk fs1 res =>
      rw [hcs] at h
      cases res with
      | ok c =>
        dsimp only at h ⊢
        rw [List.length_cons, upload_trace_length vals rest fs1 nb dp
          (fun k' hk' => hval k' (by simp [Children.keysOf, hk'])) (fun e he => h e (by simp [he]))]
        rfl
      | error e =>
        cases e with
        | unableToAccess q =>
          dsimp only at h ⊢
          rw [List.length_cons, upload_trace_length vals rest fs1 nb dp
            (fun k' hk' => hval k' (by simp [Children.keysOf, hk']))
            (fun e he => h e (by simp [he]))]
          rfl
        | noBasePath q =>
          dsimp only at h
          exact absurd (h (.error (.noBasePath q)) (by simp)) (by simp [okOrUnable])
        | recordNotFound q =>
          dsimp only at h
          exact absurd (h (.error (.recordNotFound q)) (by simp)) (by simp [okOrUnable])
        | notFile q =>
          dsimp only at h
          exact absurd (h (.error (.notFile q)) (by simp)) (by simp [okOrUnable])
        | notFolder q =>
          dsimp only at h
          exact absurd (h (.error (.notFolder q)) (by simp)) (by simp [okOrUnable])
        | dropboxApi q =>
          dsimp only at h
          exact absurd (h (.error (.dropboxApi q)) (by simp)) (by simp [okOrUnable])
termination_by cs => sizeOf cs

theorem keysOf_addChild : ∀ (cs : Children) (k : Str) (c : Record), k ∉ cs.keysOf →
    (cs.addChild k c).keysOf = cs.keysOf ++ [k]
  | .nil, k, c, _ => rfl
  | .cons k' r' rest, k, c, h => by
    have hne : k' ≠ k := by
      intro he
      exact h (by simp [Children.keysOf, he])
    show (if k' = k then Children.cons k c rest else .cons k' r' (rest.addChild k c)).keysOf
      = (Children.cons k' r' rest).keysOf ++ [k]
    rw [if_neg hne]
    show k' :: (rest.addChild k c).keysOf = (k' :: rest.keysOf) ++ [k]
    rw [keysOf_addChild rest k c (fun hm => h (by simp [Children.keysOf, hm]))]
    rfl

theorem okPaths_append : ∀ t₁ t₂ : List (Except Err Record),
    okPaths (t₁ ++ t₂) = okPaths t₁ ++ okPaths t₂ := by
  intro t₁ t₂
  induction t₁ with
  | nil => rfl
  | cons e rest ih =>
    cases e with
    | ok c => simp [okPaths, ih]
    | error e2 => simp [okPaths, ih]

theorem okPaths_length_all_ok : ∀ t : List (Except Err Record),
    (∀ e ∈ t, ∃ r, e = .ok r) → (okPaths t).length = t.length := by
  intro t
  induction t with
  | nil => intro _; rfl
  | cons e rest ih =>
    intro h
    obtain ⟨r, rfl⟩ := h e (by simp)
    simp [okPaths, ih (fun e' he' => h e' (by simp [he']))]

theorem addAllOk_folder : ∀ (t : List (Except Err Record)) (ap : Str) (ab : Option Str)
    (am ai : Nat) (acs : Children), (acs.keysOf ++ okPaths t).Nodup →
    ∃ rcs : Children, addAllOk (.folder ap ab am ai acs) t = .folder ap ab am ai rcs ∧
      rcs.keysOf = acs.keysOf ++ okPaths t := by
  intro t
  induction t with
  | nil =>
    intro ap ab am ai acs _
    exact ⟨acs, rfl, by simp [okPaths]⟩
  | cons e rest ih =>
    intro ap ab am ai acs hnd
    cases e with
    | ok c =>
      have hnd' : (acs.keysOf ++ Record.path c :: okPaths rest).Nodup := hnd
      have hfresh : Record.path c ∉ acs.keysOf := by
        rcases List.nodup_append.mp hnd' with ⟨_, _, hdisj⟩
        intro hmem
        exact hdisj hmem (by simp)
      obtain ⟨rcs, heq, hkeys⟩ := ih ap ab am ai (acs.addChild (Record.path c) c) (by
        rw [keysOf_addChild acs _ c hfresh, List.append_assoc]
        simpa using hnd')
      refine ⟨rcs, heq, ?_⟩
      rw [hkeys, keysOf_addChild acs _ c hfresh, List.append_assoc]
      rfl
    | error e2 =>
      exact ih ap ab am ai acs hnd

/-- C2: during a with_content replication of a folder (base_location set,
directory creation and stat succeeding), if the run's per-child outcomes are
all successes except a single caught AccessError — such as the failing file
child's denied write — then the call does not raise: it returns a destination
folder whose children mapping holds exactly the successfully replicated
children (one key per success, N−1 keys for N children), and the failed
child's destination path is absent from that mapping. -/
theorem upload_folder_per_child_isolation
    (vals : List (Str → Bool)) (fs fs1 : FS) (p b : Str) (m dm di : Nat)
    (cs : Children) (R q : Str) (t1 t2 : List (Except Err Record))
    (hb : b ≠ [])
    (hmk : makedirs_step fs (R ++ pyRemove b p) m = (fs1, none))
    (hstat : get_folder_stat fs1 (R ++ pyRemove b p) = .ok (dm, di))
    (hval : ∀ k ∈ Children.keysOf cs, validate vals k = true)
    (htr : upload_trace vals fs1 cs R (R ++ pyRemove b p)
      = t1 ++ .error (.unableToAccess q) :: t2)
    (h1 : ∀ e ∈ t1, ∃ r, e = .ok r)
    (h2 : ∀ e ∈ t2, ∃ r, e = .ok r)
    (hnodup : (okPaths (t1 ++ .error (.unableToAccess q) :: t2)).Nodup)
    (hq : q ∉ okPaths (t1 ++ .error (.unableToAccess q) :: t2)) :
    ∃ (fs' : FS) (rcs : Children),
      upload_folder vals fs p (some b) m cs R true
        = (fs', .ok (.folder (R ++ pyRemove b p) none dm di rcs)) ∧
      rcs.keysOf = okPaths (t1 ++ .error (.unableToAccess q) :: t2) ∧
      rcs.keysOf.length = cs.size - 1 ∧
      q ∉ rcs.keysOf := by
  have hall : ∀ e ∈ upload_trace vals fs1 cs R (R ++ pyRemove b p), okOrUnable e = true := by
    rw [htr]
    intro e he
    rcases List.mem_append.mp he with hA | hB
    · obtain ⟨r, rfl⟩ := h1 e hA
      rfl
    · rcases List.mem_cons.mp hB with rfl | hC
      · rfl
      · obtain ⟨r, rfl⟩ := h2 e hC
        rfl
  obtain ⟨fs', hloop⟩ := upload_children_eq_trace vals cs fs1 R
    (.folder (R ++ pyRemove b p) none dm di .nil) hall
  obtain ⟨rcs, hadd, hkeys⟩ := addAllOk_folder
    (upload_trace vals fs1 cs R (R ++ pyRemove b p)) (R ++ pyRemove b p) none dm di .nil
    (by
      show (Children.keysOf .nil ++ okPaths (upload_trace vals fs1 cs R (R ++ pyRemove b p))).Nodup
      rw [htr]
      simpa [Children.keysOf] using hnodup)
  have hok_eq : okPaths (t1 ++ .error (.unableToAccess q) :: t2)
      = okPaths t1 ++ okPaths t2 := by
    rw [okPaths_append]
    rfl
  have hlen_tr : (upload_trace vals fs1 cs R (R ++ pyRemove b p)).length = cs.size :=
    upload_trace_length vals cs fs1 R (R ++ pyRemove b p) hval hall
  rw [htr] at hlen_tr
  have hlen1 : (okPaths t1).length = t1.length := okPaths_length_all_ok t1 h1
  have hlen2 : (okPaths t2).length = t2.length := okPaths_length_all_ok t2 h2
  have hkeys' : rcs.keysOf = okPaths (t1 ++ .error (.unableToAccess q) :: t2) := by
    rw [hkeys, htr]
    simp [Children.keysOf]
  refine ⟨fs', rcs, ?_, hkeys', ?_, ?_⟩
  · rw [upload_folder_eq]
    dsimp only
    rw [if_neg hb, hmk]
    dsimp only
    rw [hstat]
    dsimp only
    rw [hloop]
    dsimp only [Record.path]
    rw [hadd]
    simp
  · rw [hkeys', hok_eq]
    simp only [List.length_append, List.length_cons] at hlen_tr ⊢
    rw [hlen1, hlen2]
    omega
  · rw [hkeys']
    exact hq

/-- Witness for C2 at a concrete run: two file children of /s copied to
/dst, the write of the second ("/dst/bad") denied; replication succeeds with
exactly one child and the failed destination path absent. -/
theorem upload_folder_per_child_isolation_witness :
    ∃ (fs' : FS) (rcs : Children),
      upload_folder []
          ⟨[], [("/s/a".data, [1]), ("/s/bad".data, [2])], [], [], [], [],
            ["/dst/bad".data], []⟩
          "/s".data (some "/s".data) 5
          (.cons "/s/a".data (.file "/s/a".data "a".data 7 1 0)
            (.cons "/s/bad".data (.file "/s/bad".data "bad".data 7 1 0) .nil))
          "/dst".data true
        = (fs', .ok (.folder ("/dst".data ++ pyRemove "/s".data "/s".data) none 5 0 rcs)) ∧
      rcs.keysOf = okPaths
        ([.ok (.file "/dst/a".data "a".data 7 1 0)]
          ++ .error (.unableToAccess "/dst/bad".data) :: []) ∧
      rcs.keysOf.length
        = (Children.cons "/s/a".data (.file "/s/a".data "a".data 7 1 0)
            (.cons "/s/bad".data (.file "/s/bad".data "bad".data 7 1 0) .nil)).size - 1 ∧
      "/dst/bad".data ∉ rcs.keysOf :=
  upload_folder_per_child_isolation []
    ⟨[], [("/s/a".data, [1]), ("/s/bad".data, [2])], [], [], [], [],
      ["/dst/bad".data], []⟩
    ⟨["/dst".data], [("/s/a".data, [1]), ("/s/bad".data, [2])], [("/dst".data, 5)], [],
      [], [], ["/dst/bad".data], []⟩
    "/s".data "/s".data 5 5 0
    (.cons "/s/a".data (.file "/s/a".data "a".data 7 1 0)
      (.cons "/s/bad".data (.file "/s/bad".data "bad".data 7 1 0) .nil))
    "/dst".data "/dst/bad".data
    [.ok (.file "/dst/a".data "a".data 7 1 0)] []
    (by decide)
    (by simp [makedirs_step, setA, pyRemove, pyRemoveGo, startsWith, lookupA])
    (by simp [get_folder_stat, lookupA, pyRemove, pyRemoveGo, startsWith])
    (by decide)
    (by simp [upload_trace, child_step, upload_file, get_file_content, lookupA, setA,
      pyRemove, pyRemoveGo, startsWith, validate])
    (by rintro e he
        simp only [List.mem_singleton] at he
        exact ⟨_, he⟩)
    (by rintro e he; simp at he)
    (by decide)
    (by decide)

theorem destFolderPathsC_addChild : ∀ (cs : Children) (k : Str) (c : Record) (z : Str),
    z ∈ destFolderPathsC (cs.addChild k c) →
    z ∈ destFolderPathsC cs ∨ z ∈ destFolderPaths c
  | .nil, k, c, z, hz => by
    simp only [Children.addChild, destFolderPathsC, List.append_nil] at hz
    exact Or.inr hz
  | .cons k' r' rest, k, c, z, hz => by
    by_cases hk : k' = k
    · rw [show (Children.cons k' r' rest).addChild k c = .cons k c rest from by
        simp [Children.addChild, hk]] at hz
      simp only [destFolderPathsC] at hz ⊢
      rcases List.mem_append.mp hz with hc | hrest
      · exact Or.inr hc
      · exact Or.inl (List.mem_append.mpr (Or.inr hrest))
    · rw [show (Children.cons k' r' rest).addChild k c
          = .cons k' r' (rest.addChild k c) from by simp [Children.addChild, hk]] at hz
      simp only [destFolderPathsC] at hz ⊢
      rcases List.mem_append.mp hz with hr | hrest
      · exact Or.inl (List.mem_append.mpr (Or.inl hr))
      · rcases destFolderPathsC_addChild rest k c z hrest with h | h
        · exact Or.inl (List.mem_append.mpr (Or.inr h))
        · exact Or.inr h
termination_by cs => sizeOf cs

theorem destFolderPaths_addChildR (acc c : Record) (z : Str)
    (hz : z ∈ destFolderPaths (addChildR acc c)) :
    z ∈ destFolderPaths acc ∨ z ∈ destFolderPaths c := by
  cases acc with
  | file p n m s i => exact Or.inl hz
  | folder p b m i cs =>
    simp only [addChildR, destFolderPaths] at hz ⊢
    rcases List.mem_cons.mp hz with rfl | htl
    · exact Or.inl (List.mem_cons.mpr (Or.inl rfl))
    · rcases destFolderPathsC_addChild cs (Record.path c) c z htl with h | h
      · exact Or.inl (List.mem_cons.mpr (Or.inr h))
      · exact Or.inr h

theorem upload_folder_ok_decompose (vals : List (Str → Bool)) (fs : FS) (cp : Str)
    (cb : Option Str) (cm : Nat) (ccs : Children) (nb : Str) (fs2 : FS) (dchild : Record)
    (h : upload_folder vals fs cp cb cm ccs nb true = (fs2, .ok dchild)) :
    ∃ (bb : Str) (fs1 : FS) (dm di : Nat), cb = some bb ∧
      upload_children vals fs1 ccs nb
        (.folder (nb ++ pyRemove bb cp) none dm di .nil) = (fs2, .ok dchild) := by
  rw [upload_folder_eq] at h
  cases cb with
  | none => simp at h
  | some bb =>
    dsimp only at h
    split at h
    · simp at h
    · split at h
      · simp at h
      · next fs1 heqm =>
        split at h
        · simp at h
        · next dm di heqs =>
          exact ⟨bb, fs1, dm, di, rfl, h⟩

theorem upload_children_paths_aux (vals : List (Str → Bool)) :
    ∀ n : Nat, ∀ cs : Children, sizeOf cs < n →
      ∀ (fs : FS) (nb : Str) (acc : Record) (fs' : FS) (d : Record),
        upload_children vals fs cs nb acc = (fs', .ok d) →
        ∀ z ∈ destFolderPaths d, z ∈ destFolderPaths acc ∨
          ∃ rel ∈ srcRelPathsC cs, z = nb ++ rel := by
  intro n
  induction n with
  | zero => intro cs h; omega
  | succ n ih =>
    intro cs hsz fs nb acc fs' d h z hz
    cases cs with
    | nil =>
      rw [upload_children_nil] at h
      simp only [Prod.mk.injEq, Except.ok.injEq] at h
      rw [← h.2] at hz
      exact Or.inl hz
    | cons k r rest =>
      have hspec : sizeOf (Children.cons k r rest)
          = 1 + sizeOf k + sizeOf r + sizeOf rest := by simp
      have hr0 := sizeOf_record_pos r
      have hrest0 := sizeOf_children_pos rest
      have hszrest : sizeOf rest < n := by omega
      rw [upload_children_cons] at h
      by_cases hv : validate vals k = true
      · rw [if_pos hv] at h
        cases hcs : child_step vals fs r nb (Record.path acc) with
        | mk fs1 res =>
          rw [hcs] at h
          cases res with
          | ok c =>
            dsimp only at h
            have hc : destFolderPaths c = [] ∨
                ∀ z' ∈ destFolderPaths c, ∃ rel ∈ srcRelPaths r, z' = nb ++ rel := by
              cases r with
              | file fp fn fm fsz fi =>
                rw [child_step_file] at hcs
                unfold upload_file at hcs
                dsimp only at hcs
                split at hcs
                · simp at hcs
                · split at hcs
                  · simp at hcs
                  · simp only [Prod.mk.injEq, Except.ok.injEq] at hcs
                    rw [← hcs.2]
                    exact Or.inl rfl
              | folder cp cb cm ci ccs =>
                have hccspec : sizeOf (Record.folder cp cb cm ci ccs)
                    = 1 + sizeOf cp + sizeOf cb + cm + ci + sizeOf ccs := by simp
                have hcp0 : 0 < sizeOf cp := by cases cp <;> simp_arith
                have hszccs : sizeOf ccs < n := by omega
                rw [child_step_folder] at hcs
                obtain ⟨bb, fsx, dm, di, rfl, hloop⟩ :=
                  upload_folder_ok_decompose vals fs cp cb cm ccs nb fs1 c hcs
                refine Or.inr ?_
                intro z' hz'
                rcases ih ccs hszccs fsx nb _ fs1 c hloop z' hz' with hacc0 | ⟨rel, hrel, rfl⟩
                · rw [show destFolderPaths
                      (Record.folder (nb ++ pyRemove bb cp) none dm di .nil)
                      = [nb ++ pyRemove bb cp] from rfl] at hacc0
                  simp only [List.mem_singleton] at hacc0
                  exact ⟨pyRemove bb cp, by simp [srcRelPaths], hacc0⟩
                · exact ⟨rel, by simp [srcRelPaths, hrel], rfl⟩
            rcases ih rest hszrest fs1 nb (addChildR acc c) fs' d h z hz with hin | ⟨rel, hrel, rfl⟩
            · rcases destFolderPaths_addChildR acc c z hin with h1 | h1
              · exact Or.inl h1
              · rcases hc with hempty | hall
                · rw [hempty] at h1
                  simp at h1
                · obtain ⟨rel, hrel, rfl⟩ := hall z h1
                  exact Or.inr ⟨rel, by
                    simp only [srcRelPathsC, List.mem_append]
                    exact Or.inl hrel, rfl⟩
            · exact Or.inr ⟨rel, by
                simp only [srcRelPathsC, List.mem_append]
                exact Or.inr hrel, rfl⟩
          | error e =>
            cases e with
            | unableToAccess q =>
              dsimp only at h
              rcases ih rest hszrest fs1 nb acc fs' d h z hz with hin | ⟨rel, hrel, rfl⟩
              · exact Or.inl hin
              · exact Or.inr ⟨rel, by
                  simp only [srcRelPathsC, List.mem_append]
                  exact Or.inr hrel, rfl⟩
            | noBasePath q => simp at h
            | recordNotFound q => simp at h
            | notFile q => simp at h
            | notFolder q => simp at h
            | dropboxApi q => simp at h
      · rw [if_neg hv] at h
        rcases ih rest hszrest fs nb acc fs' d h z hz with hin | ⟨rel, hrel, rfl⟩
        · exact Or.inl hin
        · exact Or.inr ⟨rel, by
            simp only [srcRelPathsC, List.mem_append]
            exact Or.inr hrel, rfl⟩

/-- C4: with with_content=true the recursion hands every child folder the
original destination root, so every folder materialized anywhere in the
returned destination tree sits at destRootPath ++ rel where rel is the
corresponding source folder's path minus its baseLocation (the code's own
string subtraction), at every depth. -/
theorem upload_folder_threads_dest_root (vals : List (Str → Bool)) (fs : FS)
    (p b : Str) (m : Nat) (cs : Children) (R : Str) (fs' : FS) (d : Record)
    (h : upload_folder vals fs p (some b) m cs R true = (fs', .ok d)) :
    ∀ z ∈ destFolderPaths d,
      ∃ rel ∈ srcRelPaths (.folder p (some b) m 0 cs), z = R ++ rel := by
  intro z hz
  obtain ⟨bb, fs1, dm, di, hsome, hloop⟩ :=
    upload_folder_ok_decompose vals fs p (some b) m cs R fs' d h
  obtain rfl : b = bb := Option.some.inj hsome
  rcases upload_children_paths_aux vals (sizeOf cs + 1) cs (Nat.lt_succ_self _)
      fs1 R _ fs' d hloop z hz with hacc | ⟨rel, hrel, rfl⟩
  · rw [show destFolderPaths (Record.folder (R ++ pyRemove b p) none dm di .nil)
        = [R ++ pyRemove b p] from rfl] at hacc
    simp only [List.mem_singleton] at hacc
    exact ⟨pyRemove b p, by simp [srcRelPaths], hacc⟩
  · exact ⟨rel, by simp [srcRelPaths, hrel], rfl⟩

/-- Witness for C4: a nested source tree /s/sub copied to /dst — every
materialized destination folder path is the root plus the source's relative
path. -/
theorem upload_folder_threads_dest_root_witness :
    ∃ rel ∈ srcRelPaths (.folder "/src".data (some "/src".data) 5 0
        (.cons "/src/sub".data (.folder "/src/sub".data (some "/src".data) 3 0 .nil) .nil)),
      "/dst/sub".data = "/dst".data ++ rel :=
  upload_folder_threads_dest_root [] ⟨[], [], [], [], [], [], [], []⟩
    "/src".data "/src".data 5
    (.cons "/src/sub".data (.folder "/src/sub".data (some "/src".data) 3 0 .nil) .nil)
    "/dst".data
    ⟨["/dst/sub".data, "/dst".data], [],
      [("/dst".data, 5), ("/dst/sub".data, 3)], [], [], [], [], []⟩
    (.folder "/dst".data none 5 0
      (.cons "/dst/sub".data (.folder "/dst/sub".data none 3 0 .nil) .nil))
    (by simp [upload_folder, upload_children, child_step, makedirs_step, get_folder_stat,
      lookupA, setA, pyRemove, pyRemoveGo, startsWith, validate, addChildR,
      Children.addChild, Record.path])
    "/dst/sub".data (by decide)

/-- C8 is contradicted by the code: with a colliding object present at the
destination path /dst/a, DropBoxHandler.upload_folder deletes and then
creates at the slash-normalized SOURCE path /src/a instead of the
destination path. The collision at /dst/a survives untouched, a folder
object appears at the source path, and the returned record — whose modified
field is indeed the synchronization-moment timestamp, the one part of the
claim the code satisfies — carries the destination path /dst/a at which
nothing was created. -/
theorem dropbox_upload_folder_source_path_eval :
    dropbox_upload_folder [] ⟨[], [], [], [], [], [], [], []⟩
        ⟨["/dst/a".data], 7, []⟩ 99 "/src/a".data (some "/src".data) .nil
        "/dst".data false
      = (⟨["/src/a".data, "/dst/a".data], 8, []⟩,
          .ok (.folder "/dst/a".data none 99 7 .nil)) ∧
    "/src/a".data ≠ "/dst/a".data := by
  refine ⟨?_, by decide⟩
  simp [dropbox_upload_folder, box_delete, box_create_folder, leadSlash, startsWith,
    pyRemove, pyRemoveGo, lookupA, List.erase]

end FileBackup
